import Mathlib

/-!
Verification development for a small option-pricing code base consisting of
two Python modules:

* `binomial_option_pricing.py`: an `OptionSpec` record validated on
  construction, a `_compute_parameters` helper deriving the
  Cox-Ross-Rubinstein lattice parameters, and `price_option` performing
  backward induction (European and American exercise).
* `monte_carlo_option_pricing.py`: a sandboxed payoff-expression compiler
  (`_SafeExpressionEvaluator`, `compile_payoff`) and a geometric
  Brownian-motion Monte Carlo pricer (`monte_carlo_price`).

Modelling conventions:

* Python floats are modelled as exact rationals (`ℚ`); IEEE-754 rounding is
  not modelled.  Transcendental routines of the `math` module (`exp`, `log`,
  `sqrt`, trig, `erf`, `erfc`, non-integer power) have no exact rational
  counterpart, so they are abstracted as the fields of a `RealFns` record
  that every definition takes as a parameter; theorems that need a property
  of the real exponential (positivity, `exp 0 = 1`, `exp x > 1` for
  `x > 0`) take it as an explicit hypothesis.
* Python exceptions are modelled with `Except PyErr`; each `PyErr`
  constructor corresponds to one raise site (or to a built-in fault such as
  `ZeroDivisionError`, which Python float division raises on a zero
  denominator).
* The pseudo-random generator of `monte_carlo_price` is abstracted as the
  stream `normals : ℕ → ℚ` of the successive `rng.gauss(0.0, 1.0)` draws
  produced by the seeded generator.
-/

namespace OptionPricing

/-- Abstract interpretations of the `math`-module float routines used by the
code, plus the constants `math.pi` and `math.e`.  The pricing and evaluation
functions are parametric in such a record. -/
structure RealFns where
  exp : ℚ → ℚ
  log : ℚ → ℚ
  sqrt : ℚ → ℚ
  sin : ℚ → ℚ
  cos : ℚ → ℚ
  tan : ℚ → ℚ
  erf : ℚ → ℚ
  erfc : ℚ → ℚ
  rpow : ℚ → ℚ → ℚ
  pi : ℚ
  e : ℚ

/-- Errors raised by the modelled code.  Each constructor corresponds to a
single `raise` site in the source or to a Python built-in arithmetic fault. -/
inductive PyErr
  | zeroDivision
  | probabilityOutOfRange
  | stepsNotPositive
  | maturityNotPositive
  | volatilityNegative
  | dividendNegative
  | simulationsNotPositive
  | securityError
  | typeError
  | nameError
  | unmodelled
deriving DecidableEq, Repr

/-- Python float division: raises `ZeroDivisionError` on a zero denominator,
otherwise exact division (rounding not modelled). -/
def pydiv (a b : ℚ) : Except PyErr ℚ :=
  if b = 0 then .error .zeroDivision else .ok (a / b)

inductive OptionType
  | call
  | put
deriving DecidableEq, Repr

inductive ExerciseType
  | european
  | american
deriving DecidableEq, Repr

/-- The `OptionSpec` dataclass of `binomial_option_pricing.py`.  `steps` is a
Python `int`, modelled as `ℤ` so that the `steps <= 0` validation check is
expressible. -/
structure OptionSpec where
  spot : ℚ
  strike : ℚ
  maturity : ℚ
  rate : ℚ
  volatility : ℚ
  steps : ℤ
  optionType : OptionType := .call
  exercise : ExerciseType := .european
  dividendYield : ℚ := 0
deriving DecidableEq, Repr

/-- The `__post_init__` validation of `OptionSpec`: the checks are performed
in source order and the first failing one raises.  The `option_type` and
`exercise` membership checks of the source are vacuously satisfied by the
enum embedding and therefore omitted. -/
def mkOptionSpec (spec : OptionSpec) : Except PyErr OptionSpec :=
  if spec.steps ≤ 0 then .error .stepsNotPositive
  else if spec.maturity ≤ 0 then .error .maturityNotPositive
  else if spec.volatility < 0 then .error .volatilityNegative
  else if spec.dividendYield < 0 then .error .dividendNegative
  else .ok spec

/-- The invariant established by `__post_init__`. -/
def OptionSpec.valid (spec : OptionSpec) : Prop :=
  0 < spec.steps ∧ 0 < spec.maturity ∧ 0 ≤ spec.volatility ∧
    0 ≤ spec.dividendYield

instance (spec : OptionSpec) : Decidable spec.valid := by
  unfold OptionSpec.valid; infer_instance

/-- The `_compute_parameters` helper: derives
`(dt, up, down, prob, discount)` from the spec, failing with the
probability-range `ValueError` when the risk-neutral probability leaves
`[0, 1]`, and with `ZeroDivisionError` where a Python float division has a
zero denominator (in particular `(growth - down) / (up - down)` when
volatility is zero, so that `up = down = 1`). -/
def computeParameters (F : RealFns) (spec : OptionSpec) :
    Except PyErr (ℚ × ℚ × ℚ × ℚ × ℚ) :=
  match pydiv spec.maturity (spec.steps : ℚ) with
  | .error err => .error err
  | .ok dt =>
    let up := F.exp (spec.volatility * F.sqrt dt)
    match pydiv 1 up with
    | .error err => .error err
    | .ok down =>
      let growth := F.exp ((spec.rate - spec.dividendYield) * dt)
      match pydiv (growth - down) (up - down) with
      | .error err => .error err
      | .ok prob =>
        if prob < 0 ∨ 1 < prob then .error .probabilityOutOfRange
        else .ok (dt, up, down, prob, F.exp (-(spec.rate * dt)))

/-- The intrinsic (exercise) value used both for the terminal payoff vector
and for the American early-exercise comparison in `price_option`. -/
def intrinsic (ot : OptionType) (strike price : ℚ) : ℚ :=
  match ot with
  | .call => max (price - strike) 0
  | .put => max (strike - price) 0

/-- Per-node lattice data threaded through the backward induction of
`price_option`. -/
structure LatticeCtx where
  optionType : OptionType
  spot : ℚ
  strike : ℚ
  up : ℚ
  down : ℚ
  prob : ℚ
  discount : ℚ
deriving DecidableEq, Repr

/-- One pass of the inner loop of `price_option` (the body of
`for step in reversed(range(spec.steps))`): from the value list of lattice
level `step + 1`, build the value list of level `step`.  Out-of-range list
reads default to `0`; the source never performs one. -/
def backstep (c : LatticeCtx) (american : Bool) (step : ℕ)
    (values : List ℚ) : List ℚ :=
  (List.range (step + 1)).map (fun j =>
    let continuation :=
      c.discount * (c.prob * values.getD (j + 1) 0 +
        (1 - c.prob) * values.getD j 0)
    if american then
      max continuation
        (intrinsic c.optionType c.strike
          (c.spot * c.up ^ j * c.down ^ (step - j)))
    else continuation)

/-- The full backward-induction loop of `price_option`: `backward c am n v`
performs the passes for `step = n - 1, …, 0` starting from the value list
`v` of level `n`. -/
def backward (c : LatticeCtx) (american : Bool) : ℕ → List ℚ → List ℚ
  | 0, values => values
  | n + 1, values => backward c american n (backstep c american n values)

/-- Bundles the spec fields and computed parameters read by the induction
loop of `price_option`. -/
def latticeCtx (spec : OptionSpec) (up down prob discount : ℚ) : LatticeCtx :=
  { optionType := spec.optionType, spot := spec.spot, strike := spec.strike,
    up := up, down := down, prob := prob, discount := discount }

/-- Whether the spec selects the American early-exercise branch
(`american = spec.exercise == "american"` in the source). -/
def isAmerican (spec : OptionSpec) : Bool :=
  match spec.exercise with
  | .american => true
  | .european => false

/-- The `price_option` function of `binomial_option_pricing.py`. -/
def priceOption (F : RealFns) (spec : OptionSpec) : Except PyErr ℚ :=
  match computeParameters F spec with
  | .error err => .error err
  | .ok (_dt, up, down, prob, discount) =>
    let n := spec.steps.toNat
    let prices :=
      (List.range (n + 1)).map (fun j => spec.spot * up ^ j * down ^ (n - j))
    let values :=
      match spec.optionType with
      | .call => prices.map (fun price => max (price - spec.strike) 0)
      | .put => prices.map (fun price => max (spec.strike - price) 0)
    .ok ((backward (latticeCtx spec up down prob discount) (isAmerican spec)
        n values).getD 0 0)

/-- Modelled from the spec's description of the CRR algorithm (section 4.2):
`specValue c am steps m j` is the value at lattice step `steps - m`, node
`j` (`j` = number of up-moves), defined top-down: at `m = 0` (the terminal
level) the payoff of the reconstructed asset price, and one level further
down the discounted expectation of the two successor values, additionally
maximised with the node's intrinsic exercise value for American exercise. -/
def specValue (c : LatticeCtx) (american : Bool) (steps : ℕ) :
    ℕ → ℕ → ℚ
  | 0, j => intrinsic c.optionType c.strike
      (c.spot * c.up ^ j * c.down ^ (steps - j))
  | m + 1, j =>
    let continuation :=
      c.discount * (c.prob * specValue c american steps m (j + 1) +
        (1 - c.prob) * specValue c american steps m j)
    if american then
      max continuation
        (intrinsic c.optionType c.strike
          (c.spot * c.up ^ j * c.down ^ (steps - (m + 1) - j)))
    else continuation

/-- The `monte_carlo_price` function of `monte_carlo_option_pricing.py`.
`simulations` is a Python `int` (modelled as `ℤ`), `payoff` the compiled
payoff callable, and `normals i` the `i`-th `rng.gauss(0.0, 1.0)` draw of
the seeded generator. -/
def monteCarloPrice (F : RealFns) (spot rate volatility maturity
    dividendYield : ℚ) (simulations : ℤ) (payoff : ℚ → ℚ)
    (normals : ℕ → ℚ) : Except PyErr ℚ :=
  if simulations ≤ 0 then .error .simulationsNotPositive
  else if maturity ≤ 0 then .error .maturityNotPositive
  else if volatility < 0 then .error .volatilityNegative
  else
    let drift := (rate - dividendYield - (1 / 2) * volatility * volatility) *
      maturity
    let diffusion := volatility * F.sqrt maturity
    let discount := F.exp (-(rate * maturity))
    let payoffSum := (List.range simulations.toNat).foldl
      (fun acc i => acc + payoff (spot * F.exp (drift + diffusion * normals i)))
      0
    .ok (discount * payoffSum / (simulations : ℚ))

/-!
Expression sandbox of `monte_carlo_option_pricing.py`.

The Python code parses an expression with `ast.parse(expression,
mode="eval")` and walks the tree with `_SafeExpressionEvaluator`.  The
parser itself is external; the embedding starts from the parsed tree.  The
top-level `ast.Expression` wrapper only forwards to its body and is
omitted.  Keyword arguments of a call are modelled by their value
expressions (`visit_Call` visits exactly `keyword.value` for each keyword).
-/

/-- Python constant literals (`ast.Constant` carries an arbitrary constant
value: numbers, strings, booleans, `None`, …). -/
inductive ConstVal
  | num (x : ℚ)
  | str (s : String)
  | boolean (b : Bool)
  | noneC
deriving DecidableEq, Repr

/-- The binary operator nodes of the Python `ast` module. -/
inductive BinOperator
  | add
  | sub
  | mult
  | div
  | floorDiv
  | modOp
  | pow
  | lshift
  | rshift
  | bitOr
  | bitXor
  | bitAnd
  | matMult
deriving DecidableEq, Repr

/-- The unary operator nodes of the Python `ast` module. -/
inductive UnaryOperator
  | uadd
  | usub
  | notOp
  | invert
deriving DecidableEq, Repr

mutual
/-- Python expression trees (`mode="eval"`), covering the node kinds the
sandbox whitelist mentions plus representative disallowed forms (attribute
access, subscripting, conditional/boolean/comparison expressions, list
displays, lambdas, assignment expressions, starred arguments,
f-strings). -/
inductive Expr
  | const (v : ConstVal)
  | name (id : String)
  | binOp (op : BinOperator) (left right : Expr)
  | unaryOp (op : UnaryOperator) (operand : Expr)
  | call (callee : Expr) (args : ExprList) (kwargValues : ExprList)
  | attrAccess (obj : Expr) (attr : String)
  | subscript (obj index : Expr)
  | ifExp (cond thenBranch elseBranch : Expr)
  | boolOpAnd (left right : Expr)
  | compareLe (left right : Expr)
  | listLit (elems : ExprList)
  | lambdaExpr (body : Expr)
  | namedAssign (id : String) (value : Expr)
  | starred (inner : Expr)
  | joinedStr (parts : ExprList)

/-- A list of expressions (call arguments, keyword values, list elements). -/
inductive ExprList
  | nil
  | cons (head : Expr) (tail : ExprList)
end

/-- The keys of the `_ALLOWED_NAMES` dictionary, in source order. -/
def allowedNameKeys : List String :=
  ["exp", "log", "sqrt", "sin", "cos", "tan", "fabs", "pi", "e",
   "erf", "erfc", "max", "min"]

/-- Binary operator nodes contained in
`_SafeExpressionEvaluator.allowed_nodes` (`Add`, `Sub`, `Mult`, `Div`,
`Pow`, `Mod`, `FloorDiv`). -/
def allowedBinOp : BinOperator → Bool
  | .add => true
  | .sub => true
  | .mult => true
  | .div => true
  | .floorDiv => true
  | .modOp => true
  | .pow => true
  | _ => false

/-- Unary operator nodes contained in `allowed_nodes` (`USub`, `UAdd`). -/
def allowedUnaryOp : UnaryOperator → Bool
  | .uadd => true
  | .usub => true
  | _ => false

mutual
/-- The validation walk of `_SafeExpressionEvaluator`: `true` iff
`visit` completes without raising.  `visit` rejects any node kind outside
`allowed_nodes`; `visit_Name` additionally requires the identifier to lie in
`allowed_variables ∪ _ALLOWED_NAMES`; `visit_Call` requires the callee to be
a plain name in `_ALLOWED_NAMES` and recursively validates positional
arguments and keyword values.  Operator nodes are visited through
`generic_visit`, which rejects the operator kinds outside the whitelist. -/
def validate (allowed : List String) : Expr → Bool
  | .const _ => true
  | .name id => allowed.contains id || allowedNameKeys.contains id
  | .binOp op l r =>
    allowedBinOp op && validate allowed l && validate allowed r
  | .unaryOp op a => allowedUnaryOp op && validate allowed a
  | .call callee args kwargValues =>
    (match callee with
     | .name id => allowedNameKeys.contains id
     | _ => false)
      && validateList allowed args && validateList allowed kwargValues
  | _ => false

/-- Pointwise validation of an expression list. -/
def validateList (allowed : List String) : ExprList → Bool
  | .nil => true
  | .cons a rest => validate allowed a && validateList allowed rest
end

/-- The math-function objects stored in `_ALLOWED_NAMES`. -/
inductive MathFn
  | mexp
  | mlog
  | msqrt
  | msin
  | mcos
  | mtan
  | mfabs
  | merf
  | merfc
  | mmax
  | mmin
deriving DecidableEq, Repr

/-- Runtime values of the sandboxed evaluator: numbers (ints, floats and
bools collapsed to `ℚ`; Python booleans behave as `0`/`1` in arithmetic),
strings, `None`, and the whitelisted function objects. -/
inductive PyVal
  | num (x : ℚ)
  | strV (s : String)
  | noneV
  | fn (f : MathFn)
deriving DecidableEq, Repr

/-- The `_ALLOWED_NAMES` dictionary: name to value, in source order. -/
def allowedNamesMap (F : RealFns) : List (String × PyVal) :=
  [("exp", .fn .mexp), ("log", .fn .mlog), ("sqrt", .fn .msqrt),
   ("sin", .fn .msin), ("cos", .fn .mcos), ("tan", .fn .mtan),
   ("fabs", .fn .mfabs), ("pi", .num F.pi), ("e", .num F.e),
   ("erf", .fn .merf), ("erfc", .fn .merfc),
   ("max", .fn .mmax), ("min", .fn .mmin)]

/-- Converts a constant literal to its runtime value. -/
def constToVal : ConstVal → PyVal
  | .num x => .num x
  | .str s => .strV s
  | .boolean b => .num (if b then 1 else 0)
  | .noneC => .noneV

/-- Python binary arithmetic on evaluator values.  Only numeric operands are
modelled exactly; operand combinations the whitelisted grammar cannot
produce from numeric inputs (string concatenation/repetition, shifts on
floats, …) are mapped to `typeError`.  Float `//` is `floor(a / b)`, float
`%` is `a - b * floor(a / b)`, and `**` with a non-integer exponent is
abstracted by `RealFns.rpow`. -/
def applyBinOp (F : RealFns) (op : BinOperator) (a b : PyVal) :
    Except PyErr PyVal :=
  match a, b with
  | .num x, .num y =>
    match op with
    | .add => .ok (.num (x + y))
    | .sub => .ok (.num (x - y))
    | .mult => .ok (.num (x * y))
    | .div => if y = 0 then .error .zeroDivision else .ok (.num (x / y))
    | .floorDiv =>
      if y = 0 then .error .zeroDivision else .ok (.num (⌊x / y⌋ : ℤ))
    | .modOp =>
      if y = 0 then .error .zeroDivision
      else .ok (.num (x - y * (⌊x / y⌋ : ℤ)))
    | .pow =>
      if y.den = 1 then
        if x = 0 ∧ y.num < 0 then .error .zeroDivision
        else .ok (.num (x ^ y.num))
      else .ok (.num (F.rpow x y))
    | _ => .error .typeError
  | _, _ => .error .typeError

/-- Python unary `+`/`-` on evaluator values (other unary operators cannot
pass validation; on non-numeric operands Python raises `TypeError`). -/
def applyUnaryOp (op : UnaryOperator) (a : PyVal) : Except PyErr PyVal :=
  match op, a with
  | .usub, .num x => .ok (.num (-x))
  | .uadd, .num x => .ok (.num x)
  | _, _ => .error .typeError

/-- Extracts an all-numeric argument list; a non-numeric argument to a math
function raises `TypeError`. -/
def pyNums : List PyVal → Option (List ℚ)
  | [] => some []
  | .num x :: rest => (pyNums rest).map (x :: ·)
  | _ => none

/-- Left fold of `max` over the remaining arguments of `max(x, y, …)`. -/
def foldMax : ℚ → List ℚ → ℚ
  | acc, [] => acc
  | acc, x :: rest => foldMax (max acc x) rest

/-- Left fold of `min` over the remaining arguments of `min(x, y, …)`. -/
def foldMin : ℚ → List ℚ → ℚ
  | acc, [] => acc
  | acc, x :: rest => foldMin (min acc x) rest

/-- Application of a whitelisted function object to numeric arguments.  The
unary `math` routines take exactly one argument; `fabs` is exact, the
transcendental ones are abstracted by `RealFns`.  `max`/`min` need at least
two arguments (with a single argument Python would require an iterable and
raise `TypeError` on a number).  Wrong arities raise `TypeError`. -/
def applyMathFn (F : RealFns) (f : MathFn) (args : List ℚ) :
    Except PyErr PyVal :=
  match f, args with
  | .mexp, [x] => .ok (.num (F.exp x))
  | .mlog, [x] => .ok (.num (F.log x))
  | .msqrt, [x] => .ok (.num (F.sqrt x))
  | .msin, [x] => .ok (.num (F.sin x))
  | .mcos, [x] => .ok (.num (F.cos x))
  | .mtan, [x] => .ok (.num (F.tan x))
  | .mfabs, [x] => .ok (.num |x|)
  | .merf, [x] => .ok (.num (F.erf x))
  | .merfc, [x] => .ok (.num (F.erfc x))
  | .mmax, x :: y :: rest => .ok (.num (foldMax (max x y) rest))
  | .mmin, x :: y :: rest => .ok (.num (foldMin (min x y) rest))
  | _, _ => .error .typeError

mutual
/-- Evaluation of a validated expression by the compiled code object under
the scope dictionary built by the `payoff` closure.  Forms that cannot pass
validation (and calls with keyword arguments, which the two-or-more-argument
numeric calls of the whitelist reject at runtime except for the `key`/
`default` keywords of `max`/`min`) are mapped to an `unmodelled` error; no
theorem depends on them. -/
def evalExpr (F : RealFns) (scope : List (String × PyVal)) :
    Expr → Except PyErr PyVal
  | .const v => .ok (constToVal v)
  | .name id =>
    match scope.lookup id with
    | some v => .ok v
    | none => .error .nameError
  | .binOp op l r =>
    match evalExpr F scope l with
    | .error err => .error err
    | .ok a =>
      match evalExpr F scope r with
      | .error err => .error err
      | .ok b => applyBinOp F op a b
  | .unaryOp op a =>
    match evalExpr F scope a with
    | .error err => .error err
    | .ok v => applyUnaryOp op v
  | .call callee args kwargValues =>
    match evalExpr F scope callee with
    | .error err => .error err
    | .ok fv =>
      match evalList F scope args with
      | .error err => .error err
      | .ok argVals =>
        match kwargValues with
        | .nil =>
          match fv with
          | .fn mf =>
            match pyNums argVals with
            | some xs => applyMathFn F mf xs
            | none => .error .typeError
          | _ => .error .typeError
        | .cons _ _ => .error .unmodelled
  | _ => .error .unmodelled

/-- Evaluation of an argument list, left to right, propagating the first
error. -/
def evalList (F : RealFns) (scope : List (String × PyVal)) :
    ExprList → Except PyErr (List PyVal)
  | .nil => .ok []
  | .cons a rest =>
    match evalExpr F scope a with
    | .error err => .error err
    | .ok v =>
      match evalList F scope rest with
      | .error err => .error err
      | .ok vs => .ok (v :: vs)
end

/-- The `float(...)` wrapper applied to the evaluation result by the
`payoff` closure.  `float` of a non-numeric string, of `None` or of a
function object fails (Python does parse numeric strings; that corner is
unreachable from the claims and mapped to `unmodelled`). -/
def pyFloat : PyVal → Except PyErr ℚ
  | .num x => .ok x
  | .strV _ => .error .unmodelled
  | .noneV => .error .typeError
  | .fn _ => .error .typeError

/-- The `payoff_variables = variables or {"s"}` line of `compile_payoff`:
Python's `or` takes the default both when `variables` is `None` and when it
is the (falsy) empty set. -/
def payoffVariables (varSet : Option (List String)) : List String :=
  match varSet with
  | none => ["s"]
  | some vs => if vs.isEmpty then ["s"] else vs

/-- The evaluation scope built by the `payoff` closure for a terminal price
`s`: a dictionary mapping every payoff variable to `s`, then updated with
the constant context, then with `_ALLOWED_NAMES` — each update overriding
what came before.  The list is ordered with the highest-precedence entries
first so that first-match `lookup` models the final dictionary. -/
def buildScope (F : RealFns) (pv : List String)
    (context : List (String × ℚ)) (s : ℚ) : List (String × PyVal) :=
  allowedNamesMap F ++ context.map (fun kv => (kv.1, PyVal.num kv.2)) ++
    pv.map (fun n => (n, PyVal.num s))

/-- The `compile_payoff` function: resolve the variable set, validate the
parsed tree (failure = the sandbox `ValueError`, the spec's
`ExpressionSecurityError`), and on success return the `payoff` closure,
which evaluates the compiled expression in the scope built for its
argument and wraps the result in `float`. -/
def compilePayoff (F : RealFns) (tree : Expr)
    (varSet : Option (List String)) (context : List (String × ℚ)) :
    Except PyErr (ℚ → Except PyErr ℚ) :=
  let pv := payoffVariables varSet
  let allowed := pv ++ context.map Prod.fst
  if validate allowed tree then
    .ok (fun s =>
      match evalExpr F (buildScope F pv context s) tree with
      | .error err => .error err
      | .ok v => pyFloat v)
  else .error .securityError

/-- Applies a compilation result to a terminal price (errors propagate). -/
def runPayoff (r : Except PyErr (ℚ → Except PyErr ℚ)) (s : ℚ) :
    Except PyErr ℚ :=
  match r with
  | .ok f => f s
  | .error err => .error err

/-- Discriminates successful compilation. -/
def exceptOk {α : Type} (r : Except PyErr α) : Bool :=
  match r with
  | .ok _ => true
  | .error _ => false

/-!
Spec-side definitions for the expression-compiler claims.  These follow the
spec's words (not the source) and are compared with the source-derived
`validate`/`compilePayoff`.
-/

/-- The function names of the spec's whitelist: "exponential, logarithm,
square root, trig, absolute value, error function/complement, min, max" —
the names that denote functions, as opposed to the constants `pi` and
`e`. -/
def specFunctionNames : List String :=
  ["exp", "log", "sqrt", "sin", "cos", "tan", "fabs", "erf", "erfc",
   "max", "min"]

/-- Binary operators listed by the claim: `+ − × ÷ % power` (no floor
division). -/
def claimBinOp : BinOperator → Bool
  | .add => true
  | .sub => true
  | .mult => true
  | .div => true
  | .modOp => true
  | .pow => true
  | _ => false

mutual
/-- The grammar of claim C1, as stated: expressions built from numeric
literals, names, binary arithmetic (`+ − × ÷ % power`), unary `+`/`-`, and
calls to the fixed whitelist. -/
def specGrammarC1 : Expr → Bool
  | .const (.num _) => true
  | .const _ => false
  | .name _ => true
  | .binOp op l r => claimBinOp op && specGrammarC1 l && specGrammarC1 r
  | .unaryOp op a => allowedUnaryOp op && specGrammarC1 a
  | .call callee args kwargValues =>
    (match callee with
     | .name id => allowedNameKeys.contains id
     | _ => false)
      && specGrammarC1List args && specGrammarC1List kwargValues
  | _ => false

/-- Pointwise `specGrammarC1` over a list. -/
def specGrammarC1List : ExprList → Bool
  | .nil => true
  | .cons a rest => specGrammarC1 a && specGrammarC1List rest
end

mutual
/-- The amended grammar of claim C1: literal constants of any kind (the
node check of the sandbox accepts every `ast.Constant`, strings, booleans
and `None` included), names, binary arithmetic including floor division
(`+ − × ÷ // % power`), unary `+`/`-`, and calls whose callee is one of the
whitelisted names.  Every other syntactic form is outside the grammar. -/
def amendedGrammar : Expr → Bool
  | .const _ => true
  | .name _ => true
  | .binOp op l r => allowedBinOp op && amendedGrammar l && amendedGrammar r
  | .unaryOp op a => allowedUnaryOp op && amendedGrammar a
  | .call callee args kwargValues =>
    (match callee with
     | .name id => allowedNameKeys.contains id
     | _ => false)
      && amendedGrammarList args && amendedGrammarList kwargValues
  | _ => false

/-- Pointwise `amendedGrammar` over a list. -/
def amendedGrammarList : ExprList → Bool
  | .nil => true
  | .cons a rest => amendedGrammar a && amendedGrammarList rest
end

mutual
/-- The bad-reference detector of claim C2 (amended form): `true` iff the
expression contains a name reference outside
`allowed ∪ allowedNameKeys`, or a call whose callee is not a plain name
drawn from the whitelisted names.  Callee positions are governed by the
call rule, not the name rule, mirroring the visitor. -/
def hasBadRef (allowed : List String) : Expr → Bool
  | .const _ => false
  | .name id => !(allowed.contains id || allowedNameKeys.contains id)
  | .binOp _ l r => hasBadRef allowed l || hasBadRef allowed r
  | .unaryOp _ a => hasBadRef allowed a
  | .call callee args kwargValues =>
    (match callee with
     | .name id => !allowedNameKeys.contains id
     | _ => true)
      || hasBadRefList allowed args || hasBadRefList allowed kwargValues
  | .attrAccess obj _ => hasBadRef allowed obj
  | .subscript obj index => hasBadRef allowed obj || hasBadRef allowed index
  | .ifExp c t e => hasBadRef allowed c || hasBadRef allowed t ||
      hasBadRef allowed e
  | .boolOpAnd l r => hasBadRef allowed l || hasBadRef allowed r
  | .compareLe l r => hasBadRef allowed l || hasBadRef allowed r
  | .listLit elems => hasBadRefList allowed elems
  | .lambdaExpr body => hasBadRef allowed body
  | .namedAssign _ value => hasBadRef allowed value
  | .starred inner => hasBadRef allowed inner
  | .joinedStr parts => hasBadRefList allowed parts

/-- Pointwise `hasBadRef` over a list. -/
def hasBadRefList (allowed : List String) : ExprList → Bool
  | .nil => false
  | .cons a rest => hasBadRef allowed a || hasBadRefList allowed rest
end

mutual
/-- Soundness half of the amended claim C1: everything the sandbox accepts
lies in the amended grammar. -/
theorem validate_amendedGrammar (allowed : List String) :
    ∀ tree : Expr, validate allowed tree = true → amendedGrammar tree = true
  | .const _, _ => rfl
  | .name _, _ => rfl
  | .binOp op l r, h => by
    simp only [validate, Bool.and_eq_true] at h
    simp only [amendedGrammar, Bool.and_eq_true]
    exact ⟨⟨h.1.1, validate_amendedGrammar allowed l h.1.2⟩,
      validate_amendedGrammar allowed r h.2⟩
  | .unaryOp op a, h => by
    simp only [validate, Bool.and_eq_true] at h
    simp only [amendedGrammar, Bool.and_eq_true]
    exact ⟨h.1, validate_amendedGrammar allowed a h.2⟩
  | .call callee args kwargValues, h => by
    simp only [validate, Bool.and_eq_true] at h
    simp only [amendedGrammar, Bool.and_eq_true]
    exact ⟨⟨h.1.1, validateList_amendedGrammarList allowed args h.1.2⟩,
      validateList_amendedGrammarList allowed kwargValues h.2⟩

/-- List version of `validate_amendedGrammar`. -/
theorem validateList_amendedGrammarList (allowed : List String) :
    ∀ trees : ExprList, validateList allowed trees = true →
      amendedGrammarList trees = true
  | .nil, _ => rfl
  | .cons a rest, h => by
    simp only [validateList, Bool.and_eq_true] at h
    simp only [amendedGrammarList, Bool.and_eq_true]
    exact ⟨validate_amendedGrammar allowed a h.1,
      validateList_amendedGrammarList allowed rest h.2⟩
end

mutual
/-- The sandbox accepts no expression containing a bad reference in the
sense of the amended claim C2. -/
theorem validate_not_hasBadRef (allowed : List String) :
    ∀ tree : Expr, validate allowed tree = true →
      hasBadRef allowed tree = false
  | .const _, _ => rfl
  | .name id, h => by
    simp only [validate] at h
    simp only [hasBadRef, h, Bool.not_true]
  | .binOp op l r, h => by
    simp only [validate, Bool.and_eq_true] at h
    simp only [hasBadRef, Bool.or_eq_false_iff]
    exact ⟨validate_not_hasBadRef allowed l h.1.2,
      validate_not_hasBadRef allowed r h.2⟩
  | .unaryOp op a, h => by
    simp only [validate, Bool.and_eq_true] at h
    exact validate_not_hasBadRef allowed a h.2
  | .call callee args kwargValues, h => by
    simp only [validate, Bool.and_eq_true] at h
    simp only [hasBadRef, Bool.or_eq_false_iff]
    refine ⟨⟨?_, validateList_not_hasBadRefList allowed args h.1.2⟩,
      validateList_not_hasBadRefList allowed kwargValues h.2⟩
    match callee, h.1.1 with
    | .name id, hc =>
      simp only [show allowedNameKeys.contains id = true from hc,
        Bool.not_true]

/-- List version of `validate_not_hasBadRef`. -/
theorem validateList_not_hasBadRefList (allowed : List String) :
    ∀ trees : ExprList, validateList allowed trees = true →
      hasBadRefList allowed trees = false
  | .nil, _ => rfl
  | .cons a rest, h => by
    simp only [validateList, Bool.and_eq_true] at h
    simp only [hasBadRefList, Bool.or_eq_false_iff]
    exact ⟨validate_not_hasBadRef allowed a h.1,
      validateList_not_hasBadRefList allowed rest h.2⟩
end

/-- Lookup distributes over list append: the left list wins. -/
theorem lookup_append {β : Type} (l₁ l₂ : List (String × β)) (a : String) :
    (l₁ ++ l₂).lookup a =
      match l₁.lookup a with
      | some v => some v
      | none => l₂.lookup a := by
  induction l₁ with
  | nil => rfl
  | cons kv rest ih =>
    obtain ⟨k, v⟩ := kv
    rw [List.cons_append]
    by_cases h : a = k
    · subst h
      simp [List.lookup]
    · simp only [List.lookup, beq_eq_false_iff_ne.mpr h, ih]

/-- A key outside the key set of an association list looks up to `none`. -/
theorem lookup_keys_none {β : Type} (l : List (String × β)) (a : String)
    (h : a ∉ l.map Prod.fst) : l.lookup a = none := by
  induction l with
  | nil => rfl
  | cons kv rest ih =>
    obtain ⟨k, v⟩ := kv
    rw [List.map_cons, List.mem_cons] at h
    push_neg at h
    simp only [List.lookup, beq_eq_false_iff_ne.mpr h.1, ih h.2]

/-- Looking up a declared payoff variable in the variable block of the
scope yields the terminal price. -/
theorem lookup_vars (pv : List String) (s : ℚ) (n : String) (h : n ∈ pv) :
    (pv.map (fun m => (m, PyVal.num s))).lookup n = some (.num s) := by
  induction pv with
  | nil => cases h
  | cons k rest ih =>
    rw [List.map_cons]
    by_cases hk : n = k
    · subst hk
      simp [List.lookup]
    · rcases List.mem_cons.mp h with h1 | h2
      · exact absurd h1 hk
      · simp only [List.lookup, beq_eq_false_iff_ne.mpr hk, ih h2]

/-- Mapping the constant context into the scope preserves a successful
lookup. -/
theorem lookup_ctx_some (ctx : List (String × ℚ)) (n : String) (v : ℚ)
    (h : ctx.lookup n = some v) :
    (ctx.map (fun kv => (kv.1, PyVal.num kv.2))).lookup n = some (.num v) := by
  induction ctx with
  | nil => cases h
  | cons kv rest ih =>
    obtain ⟨k, w⟩ := kv
    rw [List.map_cons]
    by_cases hk : n = k
    · subst hk
      simp only [List.lookup, beq_self_eq_true, Option.some_inj] at h ⊢
      rw [h]
    · simp only [List.lookup, beq_eq_false_iff_ne.mpr hk] at h ⊢
      exact ih h

/-- Mapping the constant context into the scope preserves a failing
lookup. -/
theorem lookup_ctx_none (ctx : List (String × ℚ)) (n : String)
    (h : ctx.lookup n = none) :
    (ctx.map (fun kv => (kv.1, PyVal.num kv.2))).lookup n = none := by
  induction ctx with
  | nil => rfl
  | cons kv rest ih =>
    obtain ⟨k, w⟩ := kv
    rw [List.map_cons]
    by_cases hk : n = k
    · subst hk
      simp only [List.lookup, beq_self_eq_true] at h
      cases h
    · simp only [List.lookup, beq_eq_false_iff_ne.mpr hk] at h ⊢
      exact ih h

/-- A sample interpretation of the math routines, usable wherever a theorem
only assumes `exp 0 = 1` (true of the real exponential).  `pi` and `e` are
the exact values of the IEEE-754 doubles `math.pi` and `math.e`; the
function fields are placeholders — no instantiated theorem applies them
outside their assumed properties. -/
def affineFns : RealFns :=
  { exp := fun x => 1 + x, log := id, sqrt := id, sin := id, cos := id,
    tan := id, erf := id, erfc := id, rpow := fun a _ => a,
    pi := 884279719003555 / 281474976710656,
    e := 6121026514868073 / 2251799813685248 }

/-- A sample interpretation whose `exp` is the constant `2`: everywhere
positive and `> 1`, as the theorems about the lattice assume of the real
exponential at positive arguments. -/
def constTwoFns : RealFns := { affineFns with exp := fun _ => 2 }

/-- Claim C1, counterexample: the claim states that `compile_payoff`
accepts only expressions built from numeric literals, names, binary
arithmetic `+ − × ÷ % power`, unary `+`/`-` and whitelisted calls — but the
sandbox accepts every `ast.Constant` node, so the bare string literal
expression `'boom'` passes validation although it lies outside the claimed
grammar (it is neither a numeric literal nor any other listed form).
Floor division `//` is likewise accepted though absent from the claimed
operator list. -/
theorem c1_counterexample :
    validate ["s"] (.const (.str "boom")) = true ∧
      specGrammarC1 (.const (.str "boom")) = false ∧
      validate ["s"]
        (.binOp .floorDiv (.const (.num 7)) (.const (.num 2))) = true ∧
      specGrammarC1
        (.binOp .floorDiv (.const (.num 7)) (.const (.num 2))) = false :=
  ⟨rfl, rfl, rfl, rfl⟩

/-- Claim C1 (amended): every expression the sandbox validation accepts is
built from literal constants (of any kind — the node check accepts every
`ast.Constant`), names, binary arithmetic `+ − × ÷ // % power`, unary
`+`/`-`, and calls whose callee is a whitelisted name; every other
syntactic form (attribute access, subscripting, comprehensions, boolean or
comparison or conditional expressions, lambdas, assignment expressions,
starred arguments, f-strings) is rejected at compile time, before any
evaluation. -/
theorem c1_accepted_implies_amended_grammar (allowed : List String)
    (tree : Expr) (h : validate allowed tree = true) :
    amendedGrammar tree = true :=
  validate_amendedGrammar allowed tree h

/-- Witness for claim C1's theorem at the concrete expression `s + 1`. -/
theorem c1_witness :
    validate ["s"] (.binOp .add (.name "s") (.const (.num 1))) = true ∧
      amendedGrammar (.binOp .add (.name "s") (.const (.num 1))) = true :=
  ⟨rfl, c1_accepted_implies_amended_grammar ["s"]
    (.binOp .add (.name "s") (.const (.num 1))) rfl⟩

/-- Claim C2, counterexample: the claim states that compilation fails
whenever a call's callee is not a whitelisted function name — but the
whitelist dictionary also contains the non-function constants `pi` and `e`,
and `visit_Call` only checks membership in that dictionary, so the
expression `pi(1)` compiles successfully (it fails only later, at
evaluation time, with a `TypeError`). -/
theorem c2_counterexample :
    exceptOk (compilePayoff affineFns
        (.call (.name "pi") (.cons (.const (.num 1)) .nil) .nil)
        none []) = true ∧
      specFunctionNames.contains "pi" = false ∧
      runPayoff (compilePayoff affineFns
        (.call (.name "pi") (.cons (.const (.num 1)) .nil) .nil)
        none []) 3 = .error .typeError :=
  ⟨rfl, rfl, rfl⟩

/-- Claim C2 (amended): `compile_payoff` fails with the sandbox security
error (and never evaluates the expression — the returned closure is only
built on successful validation) whenever the expression contains a name
reference outside `declaredVariables ∪ keys(constantContext) ∪
whitelistedNames`, or a call whose callee is not a plain name drawn from
the whitelisted names (the function whitelist plus the constants `pi` and
`e`); call arguments and keyword values are validated recursively under the
same rule. -/
theorem c2_bad_reference_rejected (F : RealFns)
    (varSet : Option (List String)) (ctx : List (String × ℚ)) (tree : Expr)
    (h : hasBadRef (payoffVariables varSet ++ ctx.map Prod.fst) tree = true) :
    compilePayoff F tree varSet ctx = .error .securityError := by
  have hv : validate (payoffVariables varSet ++ ctx.map Prod.fst) tree
      = false := by
    by_contra hcon
    rw [Bool.not_eq_false] at hcon
    rw [validate_not_hasBadRef _ tree hcon] at h
    cases h
  simp only [compilePayoff, hv, Bool.false_eq_true, if_false]

/-- Witness for claim C2's theorem: the undeclared name `hack` is
rejected. -/
theorem c2_witness :
    hasBadRef (payoffVariables none ++ ([] : List (String × ℚ)).map Prod.fst)
        (.name "hack") = true ∧
      compilePayoff affineFns (.name "hack") none [] =
        .error .securityError :=
  ⟨rfl, c2_bad_reference_rejected affineFns none [] (.name "hack") rfl⟩

/-- Claim C8, counterexample: the claim states that the compiled payoff
binds every name in `declaredVariables` to the argument `s` and every key
of `constantContext` to its constant — but the scope dictionary is built as
variables first, then updated with the context, then with
`_ALLOWED_NAMES`, so a constant context entry sharing a declared variable's
name overrides it: with declared variables `{"s"}` and context
`{"s": 7}`, the payoff of the expression `s` at argument `5` returns `7`,
not `5`. -/
theorem c8_counterexample :
    runPayoff (compilePayoff affineFns (.name "s") (some ["s"])
        [("s", 7)]) 5 = .ok 7 ∧ (7 : ℚ) ≠ 5 :=
  ⟨rfl, by norm_num⟩

/-- Claim C8 (amended): the compiled payoff evaluates the expression in the
scope built from its argument, where the bindings are layered — declared
variables bound to the argument, overridden by the constant context,
overridden by the whitelisted builtin names: a declared variable that is
neither a builtin name nor a context key is bound to `s`, and a context
key that is not a builtin name is bound to its constant. -/
theorem c8_payoff_scope (F : RealFns) (varSet : Option (List String))
    (ctx : List (String × ℚ)) (s : ℚ) :
    (∀ (tree : Expr) (f : ℚ → Except PyErr ℚ),
        compilePayoff F tree varSet ctx = .ok f →
        f s = match evalExpr F (buildScope F (payoffVariables varSet) ctx s)
            tree with
          | .error err => .error err
          | .ok v => pyFloat v) ∧
    (∀ n : String, n ∈ payoffVariables varSet → n ∉ allowedNameKeys →
        ctx.lookup n = none →
        (buildScope F (payoffVariables varSet) ctx s).lookup n =
          some (.num s)) ∧
    (∀ (n : String) (v : ℚ), n ∉ allowedNameKeys → ctx.lookup n = some v →
        (buildScope F (payoffVariables varSet) ctx s).lookup n =
          some (.num v)) := by
  have hkeys : ∀ n : String, n ∉ allowedNameKeys →
      (allowedNamesMap F).lookup n = none := by
    intro n hn
    exact lookup_keys_none _ n hn
  refine ⟨?_, ?_, ?_⟩
  · intro tree f h
    by_cases hv : validate (payoffVariables varSet ++ ctx.map Prod.fst) tree
    · simp only [compilePayoff, hv, if_true, Except.ok.injEq] at h
      rw [← h]
    · simp only [compilePayoff, hv, Bool.false_eq_true, if_false] at h
      cases h
  · intro n hmem hkey hctx
    unfold buildScope
    rw [List.append_assoc, lookup_append, hkeys n hkey, lookup_append,
      lookup_ctx_none ctx n hctx, lookup_vars _ s n hmem]
  · intro n v hkey hctx
    unfold buildScope
    rw [List.append_assoc, lookup_append, hkeys n hkey, lookup_append,
      lookup_ctx_some ctx n v hctx]

/-- Witness for claim C8's theorem: declared variable `x` (not a builtin,
not a context key) is bound to the argument `5`. -/
theorem c8_witness :
    "x" ∈ payoffVariables (some ["x"]) ∧ "x" ∉ allowedNameKeys ∧
      ([("K", (100 : ℚ))].lookup "x" = none) ∧
      (buildScope affineFns (payoffVariables (some ["x"]))
        [("K", 100)] 5).lookup "x" = some (.num 5) :=
  ⟨by decide, by decide, rfl,
    (c8_payoff_scope affineFns (some ["x"]) [("K", 100)] 5).2.1 "x"
      (by decide) (by decide) rfl⟩

/-- Claim C10: calling `compile_payoff` with an empty variable set behaves
identically to omitting the argument — Python's `variables or {"s"}` treats
the falsy empty set like `None` — so the default variable name `s` is
accepted by validation and the returned payoff binds `s` to its
argument. -/
theorem c10_empty_variables (F : RealFns) (tree : Expr)
    (ctx : List (String × ℚ)) (s : ℚ) :
    compilePayoff F tree (some []) ctx = compilePayoff F tree none ctx ∧
      payoffVariables (some []) = ["s"] ∧
      runPayoff (compilePayoff F (.name "s") (some []) []) s = .ok s :=
  ⟨rfl, rfl, rfl⟩

/-!
Helper lemmas for the lattice claims.
-/

/-- A successful Python division characterised. -/
theorem pydiv_ok {a b q : ℚ} (h : pydiv a b = .ok q) : b ≠ 0 ∧ q = a / b := by
  unfold pydiv at h
  by_cases hb : b = 0
  · rw [if_pos hb] at h
    cases h
  · rw [if_neg hb] at h
    exact ⟨hb, (Except.ok.inj h).symm⟩

/-- Python division with a nonzero denominator succeeds. -/
theorem pydiv_ok_of {a b : ℚ} (hb : b ≠ 0) : pydiv a b = .ok (a / b) := by
  unfold pydiv
  rw [if_neg hb]

/-- Python division by zero raises. -/
theorem pydiv_zero (a : ℚ) : pydiv a 0 = .error .zeroDivision := by
  unfold pydiv
  rw [if_pos rfl]

/-- What a successful `_compute_parameters` run guarantees about the
returned tuple: the defining formulas of each component, nonzero
denominators, and the risk-neutral probability range enforced by the
check. -/
theorem computeParameters_ok {F : RealFns} {spec : OptionSpec}
    {dt up down prob discount : ℚ}
    (h : computeParameters F spec = .ok (dt, up, down, prob, discount)) :
    (spec.steps : ℚ) ≠ 0 ∧
    dt = spec.maturity / (spec.steps : ℚ) ∧
    up = F.exp (spec.volatility * F.sqrt dt) ∧ up ≠ 0 ∧ down = 1 / up ∧
    up - down ≠ 0 ∧
    prob = (F.exp ((spec.rate - spec.dividendYield) * dt) - down) /
      (up - down) ∧
    0 ≤ prob ∧ prob ≤ 1 ∧
    discount = F.exp (-(spec.rate * dt)) := by
  unfold computeParameters at h
  dsimp only at h
  split at h
  · cases h
  case _ dt' hdt =>
    obtain ⟨hsteps, hdtval⟩ := pydiv_ok hdt
    split at h
    · cases h
    case _ down' hdown =>
      obtain ⟨hup, hdownval⟩ := pydiv_ok hdown
      split at h
      · cases h
      case _ prob' hprob =>
        obtain ⟨hdiff, hprobval⟩ := pydiv_ok hprob
        split at h
        · cases h
        case _ hrange =>
          rw [Except.ok.injEq, Prod.mk.injEq, Prod.mk.injEq, Prod.mk.injEq,
            Prod.mk.injEq] at h
          obtain ⟨h1, h2, h3, h4, h5⟩ := h
          push_neg at hrange
          subst h1 h2 h3 h4 h5
          exact ⟨hsteps, hdtval, rfl, hup, hdownval, hdiff, hprobval,
            hrange.1, hrange.2, rfl⟩

/-- On a successful parameter computation, `price_option` returns the
backward induction of the terminal intrinsic-value vector. -/
theorem priceOption_ok (F : RealFns) (spec : OptionSpec)
    (dt up down prob discount : ℚ)
    (h : computeParameters F spec = .ok (dt, up, down, prob, discount)) :
    priceOption F spec = .ok
      ((backward (latticeCtx spec up down prob discount) (isAmerican spec)
        spec.steps.toNat
        ((List.range (spec.steps.toNat + 1)).map
          (fun j => intrinsic spec.optionType spec.strike
            (spec.spot * up ^ j * down ^ (spec.steps.toNat - j))))).getD 0 0) := by
  unfold priceOption
  rw [h]
  cases hot : spec.optionType with
  | call =>
    dsimp only
    rw [List.map_map]
    rfl
  | put =>
    dsimp only
    rw [List.map_map]
    rfl

/-- `getD` with default `0` of a mapped range list. -/
theorem getD_map_range (f : ℕ → ℚ) (k j : ℕ) :
    ((List.range k).map f).getD j 0 = if j < k then f j else 0 := by
  by_cases h : j < k
  · rw [if_pos h, List.getD_eq_getElem?_getD, List.getElem?_map,
      List.getElem?_range h]
    rfl
  · rw [if_neg h, List.getD_eq_getElem?_getD, List.getElem?_eq_none]
    · rfl
    · simp only [List.length_map, List.length_range]
      omega

/-- One backward pass maps the spec-model values of a lattice level to the
spec-model values of the level below. -/
theorem backstep_spec (c : LatticeCtx) (am : Bool) (steps n : ℕ)
    (hn : n + 1 ≤ steps) :
    backstep c am n ((List.range (n + 1 + 1)).map
        (fun j => specValue c am steps (steps - (n + 1)) j)) =
      (List.range (n + 1)).map
        (fun j => specValue c am steps (steps - (n + 1) + 1) j) := by
  unfold backstep
  refine List.map_congr_left ?_
  intro j hj
  rw [List.mem_range] at hj
  have hm1 : steps - (steps - (n + 1) + 1) = n := by omega
  have g1 : ((List.range (n + 1 + 1)).map
      (fun i => specValue c am steps (steps - (n + 1)) i)).getD (j + 1) 0 =
      specValue c am steps (steps - (n + 1)) (j + 1) := by
    rw [getD_map_range, if_pos (by omega)]
  have g2 : ((List.range (n + 1 + 1)).map
      (fun i => specValue c am steps (steps - (n + 1)) i)).getD j 0 =
      specValue c am steps (steps - (n + 1)) j := by
    rw [getD_map_range, if_pos (by omega)]
  conv_rhs => rw [specValue]
  rw [hm1, g1, g2]

/-- The backward-induction loop, started on the spec-model values of level
`n`, terminates in the singleton holding the spec-model root value. -/
theorem backward_spec (c : LatticeCtx) (am : Bool) (steps : ℕ) :
    ∀ n, n ≤ steps →
      backward c am n ((List.range (n + 1)).map
        (fun j => specValue c am steps (steps - n) j)) =
        [specValue c am steps steps 0]
  | 0, _ => by
    rw [backward, show List.range (0 + 1) = [0] by rfl, List.map_cons,
      List.map_nil, Nat.sub_zero]
  | n + 1, h => by
    rw [backward, backstep_spec c am steps n h,
      show steps - (n + 1) + 1 = steps - n by omega]
    exact backward_spec c am steps n (by omega)

/-- Claim C3: for every valid `OptionSpec` whose lattice parameters compute
successfully (in particular the risk-neutral probability lies in `[0, 1]`),
`price_option` returns exactly the CRR backward-induction value described
by the spec: terminal node `j` carries the intrinsic payoff of
`spot·u^j·d^(steps−j)`, each interior node is the discounted expectation of
its two successors, maximised with the intrinsic exercise value exactly for
American exercise, and the single remaining step-0 value is the price. -/
theorem c3_price_is_crr_backward_induction (F : RealFns) (spec : OptionSpec)
    (hvalid : spec.valid) (dt up down prob discount : ℚ)
    (h : computeParameters F spec = .ok (dt, up, down, prob, discount)) :
    priceOption F spec = .ok
      (specValue (latticeCtx spec up down prob discount) (isAmerican spec)
        spec.steps.toNat spec.steps.toNat 0) := by
  rw [priceOption_ok F spec dt up down prob discount h]
  have hinit : (List.range (spec.steps.toNat + 1)).map
      (fun j => intrinsic spec.optionType spec.strike
        (spec.spot * up ^ j * down ^ (spec.steps.toNat - j))) =
      (List.range (spec.steps.toNat + 1)).map
        (fun j => specValue (latticeCtx spec up down prob discount)
          (isAmerican spec) spec.steps.toNat
          (spec.steps.toNat - spec.steps.toNat) j) := by
    rw [Nat.sub_self]
    rfl
  rw [hinit, backward_spec (latticeCtx spec up down prob discount)
    (isAmerican spec) spec.steps.toNat spec.steps.toNat le_rfl]
  rfl

/-- A sample valid spec with zero volatility. -/
def zeroVolSpec : OptionSpec :=
  { spot := 100, strike := 100, maturity := 1, rate := 0, volatility := 0,
    steps := 1 }

/-- A sample valid spec with volatility 1 and a single lattice step. -/
def unitSpec : OptionSpec :=
  { spot := 100, strike := 100, maturity := 1, rate := 0, volatility := 1,
    steps := 1 }

/-- Claim C3 witness: the one-step lattice under the sample interpretation
prices to the spec-model backward-induction value. -/
theorem c3_witness :
    unitSpec.valid ∧
      computeParameters constTwoFns unitSpec = .ok (1, 2, 1 / 2, 1, 2) ∧
      priceOption constTwoFns unitSpec = .ok
        (specValue (latticeCtx unitSpec 2 (1 / 2) 1 2) (isAmerican unitSpec)
          unitSpec.steps.toNat unitSpec.steps.toNat 0) := by
  have hvalid : unitSpec.valid := by
    refine ⟨by norm_num [unitSpec], by norm_num [unitSpec],
      by norm_num [unitSpec], by norm_num [unitSpec]⟩
  have hcp : computeParameters constTwoFns unitSpec = .ok (1, 2, 1 / 2, 1, 2) := by
    simp [computeParameters, pydiv, constTwoFns, affineFns, unitSpec]
    norm_num
  exact ⟨hvalid, hcp, c3_price_is_crr_backward_induction constTwoFns unitSpec
    hvalid 1 2 (1 / 2) 1 2 hcp⟩

/-- Claim C4: the code has no zero-volatility special case.  With
`volatility = 0` the up and down factors are both `exp 0 = 1`, and the
risk-neutral probability formula divides by `up - down = 0`, so
`price_option` raises `ZeroDivisionError` instead of returning the
discounted deterministic forward payoff the spec requires. -/
theorem c4_zero_volatility_division_fault (F : RealFns) (spec : OptionSpec)
    (hsteps : spec.steps ≠ 0) (hvol : spec.volatility = 0)
    (hexp : F.exp 0 = 1) :
    priceOption F spec = .error .zeroDivision := by
  have hs : ((spec.steps : ℚ)) ≠ 0 := Int.cast_ne_zero.mpr hsteps
  have hup : F.exp (spec.volatility *
      F.sqrt (spec.maturity / (spec.steps : ℚ))) = 1 := by
    rw [hvol, zero_mul, hexp]
  simp only [priceOption, computeParameters, pydiv_ok_of hs, hup,
    pydiv_ok_of (one_ne_zero : (1 : ℚ) ≠ 0), one_div_one, sub_self,
    pydiv_zero]

/-- Claim C4 witness: the concrete zero-volatility spec faults. -/
theorem c4_witness :
    zeroVolSpec.steps ≠ 0 ∧ zeroVolSpec.volatility = 0 ∧
      affineFns.exp 0 = 1 ∧
      priceOption affineFns zeroVolSpec = .error .zeroDivision := by
  have hexp : affineFns.exp 0 = 1 := by norm_num [affineFns]
  exact ⟨by decide, rfl, hexp,
    c4_zero_volatility_division_fault affineFns zeroVolSpec (by decide) rfl
      hexp⟩

/-- The risk-neutral probability `p = (g - d) / (u - d)` exactly as the
code computes it on the fault-free path. -/
def riskNeutralProb (F : RealFns) (spec : OptionSpec) : ℚ :=
  let dt := spec.maturity / (spec.steps : ℚ)
  let up := F.exp (spec.volatility * F.sqrt dt)
  let down := 1 / up
  (F.exp ((spec.rate - spec.dividendYield) * dt) - down) / (up - down)

/-- Claim C5: for a valid spec with positive volatility (granting
`exp(σ√dt) > 1`, a property of the real exponential at a positive
argument), `price_option` fails with the probability-range error exactly
when the computed risk-neutral probability leaves `[0, 1]`, and returns a
price whenever it lies inside; the probability is never clamped — the
successful branch prices with the exact computed `p` (claim C3's
theorem). -/
theorem c5_fail_iff_probability_out_of_range (F : RealFns)
    (spec : OptionSpec) (hvalid : spec.valid) (hvol : 0 < spec.volatility)
    (hone : 1 < F.exp (spec.volatility *
      F.sqrt (spec.maturity / (spec.steps : ℚ)))) :
    (priceOption F spec = .error .probabilityOutOfRange ↔
      (riskNeutralProb F spec < 0 ∨ 1 < riskNeutralProb F spec)) ∧
    (0 ≤ riskNeutralProb F spec → riskNeutralProb F spec ≤ 1 →
      ∃ x, priceOption F spec = .ok x) := by
  have hs : ((spec.steps : ℚ)) ≠ 0 :=
    Int.cast_ne_zero.mpr (ne_of_gt hvalid.1)
  set u := F.exp (spec.volatility *
    F.sqrt (spec.maturity / (spec.steps : ℚ))) with hu
  have hu0 : 0 < u := lt_trans one_pos hone
  have hinv : 1 / u < 1 := by
    rw [div_lt_one hu0]
    exact hone
  have hdiff : 0 < u - 1 / u := by linarith
  have hcp : computeParameters F spec =
      if riskNeutralProb F spec < 0 ∨ 1 < riskNeutralProb F spec
      then .error .probabilityOutOfRange
      else .ok (spec.maturity / (spec.steps : ℚ), u, 1 / u,
        riskNeutralProb F spec,
        F.exp (-(spec.rate * (spec.maturity / (spec.steps : ℚ))))) := by
    simp only [computeParameters, riskNeutralProb, pydiv_ok_of hs, ← hu,
      pydiv_ok_of (ne_of_gt hu0), pydiv_ok_of (ne_of_gt hdiff)]
  constructor
  · constructor
    · intro herr
      by_contra hcon
      rw [not_or] at hcon
      unfold priceOption at herr
      rw [hcp, if_neg (by rw [not_or]; exact hcon)] at herr
      dsimp only at herr
      cases herr
    · intro hp
      unfold priceOption
      rw [hcp, if_pos hp]
  · intro h0 h1
    unfold priceOption
    rw [hcp, if_neg (by rw [not_or]; exact ⟨not_lt.mpr h0, not_lt.mpr h1⟩)]
    exact ⟨_, rfl⟩

/-- Claim C5 witness: at the sample interpretation the probability is `1`,
so pricing succeeds. -/
theorem c5_witness :
    unitSpec.valid ∧ 0 < unitSpec.volatility ∧
      1 < constTwoFns.exp (unitSpec.volatility *
        constTwoFns.sqrt (unitSpec.maturity / (unitSpec.steps : ℚ))) ∧
      ∃ x, priceOption constTwoFns unitSpec = .ok x := by
  have hvalid : unitSpec.valid := by
    refine ⟨by norm_num [unitSpec], by norm_num [unitSpec],
      by norm_num [unitSpec], by norm_num [unitSpec]⟩
  have hvol : (0 : ℚ) < unitSpec.volatility := by norm_num [unitSpec]
  have hone : 1 < constTwoFns.exp (unitSpec.volatility *
      constTwoFns.sqrt (unitSpec.maturity / (unitSpec.steps : ℚ))) := by
    norm_num [constTwoFns, affineFns]
  refine ⟨hvalid, hvol, hone,
    (c5_fail_iff_probability_out_of_range constTwoFns unitSpec hvalid hvol
      hone).2 ?_ ?_⟩
  · norm_num [riskNeutralProb, constTwoFns, affineFns, unitSpec]
  · norm_num [riskNeutralProb, constTwoFns, affineFns, unitSpec]

/-- Pointwise monotonicity of one backward pass: under nonnegative
discount and a probability in `[0, 1]`, the American pass dominates the
European pass whenever the input value lists do. -/
theorem backstep_mono (c : LatticeCtx) (n : ℕ) (vE vA : List ℚ)
    (hp0 : 0 ≤ c.prob) (hp1 : c.prob ≤ 1) (hd : 0 ≤ c.discount)
    (hv : ∀ j, vE.getD j 0 ≤ vA.getD j 0) :
    ∀ j, (backstep c false n vE).getD j 0 ≤
      (backstep c true n vA).getD j 0 := by
  intro j
  unfold backstep
  rw [getD_map_range, getD_map_range]
  by_cases hj : j < n + 1
  · rw [if_pos hj, if_pos hj]
    simp only [Bool.false_eq_true, if_false, if_true]
    refine le_trans ?_ (le_max_left _ _)
    have h1 : c.prob * vE.getD (j + 1) 0 ≤ c.prob * vA.getD (j + 1) 0 :=
      mul_le_mul_of_nonneg_left (hv (j + 1)) hp0
    have h2 : (1 - c.prob) * vE.getD j 0 ≤ (1 - c.prob) * vA.getD j 0 :=
      mul_le_mul_of_nonneg_left (hv j) (by linarith)
    exact mul_le_mul_of_nonneg_left (add_le_add h1 h2) hd
  · rw [if_neg hj, if_neg hj]

/-- Pointwise monotonicity of the whole backward induction. -/
theorem backward_mono (c : LatticeCtx) (hp0 : 0 ≤ c.prob)
    (hp1 : c.prob ≤ 1) (hd : 0 ≤ c.discount) :
    ∀ (n : ℕ) (vE vA : List ℚ), (∀ j, vE.getD j 0 ≤ vA.getD j 0) →
      ∀ j, (backward c false n vE).getD j 0 ≤
        (backward c true n vA).getD j 0
  | 0, _, _, hv => hv
  | n + 1, vE, vA, hv => by
    rw [backward, backward]
    exact backward_mono c hp0 hp1 hd n _ _
      (backstep_mono c n vE vA hp0 hp1 hd hv)

/-- Claim C7: with all other fields identical, the American price returned
by `price_option` dominates the European one (assuming, as holds for the
real exponential, that the discount factor is nonnegative). -/
theorem c7_american_ge_european (F : RealFns) (spec : OptionSpec)
    (hF : ∀ x, 0 ≤ F.exp x) (a b : ℚ)
    (ha : priceOption F { spec with exercise := .american } = .ok a)
    (hb : priceOption F { spec with exercise := .european } = .ok b) :
    b ≤ a := by
  cases hcp : computeParameters F spec with
  | error err =>
    have hA : priceOption F { spec with exercise := ExerciseType.american } =
        .error err := by
      unfold priceOption
      rw [show computeParameters F
        { spec with exercise := ExerciseType.american } = .error err from hcp]
    rw [hA] at ha
    cases ha
  | ok tup =>
    obtain ⟨dt, up, down, prob, discount⟩ := tup
    obtain ⟨-, -, -, -, -, -, -, hp0, hp1, hdisc⟩ := computeParameters_ok hcp
    have hamer : computeParameters F
        { spec with exercise := ExerciseType.american } =
        .ok (dt, up, down, prob, discount) := hcp
    have heuro : computeParameters F
        { spec with exercise := ExerciseType.european } =
        .ok (dt, up, down, prob, discount) := hcp
    rw [priceOption_ok _ _ _ _ _ _ _ hamer] at ha
    rw [priceOption_ok _ _ _ _ _ _ _ heuro] at hb
    have eA : isAmerican { spec with exercise := ExerciseType.american } =
      true := rfl
    have eE : isAmerican { spec with exercise := ExerciseType.european } =
      false := rfl
    rw [eA] at ha
    rw [eE] at hb
    have hAi := Except.ok.inj ha
    have hEi := Except.ok.inj hb
    rw [← hAi, ← hEi]
    exact backward_mono (latticeCtx spec up down prob discount) hp0 hp1
      (by rw [show (latticeCtx spec up down prob discount).discount =
          discount from rfl, hdisc]; exact hF _)
      spec.steps.toNat _ _ (fun j => le_rfl) 0

/-- Claim C7 witness: the one-step sample prices to `200` under both
exercise styles, and the theorem yields the comparison. -/
theorem c7_witness :
    (∀ x : ℚ, 0 ≤ constTwoFns.exp x) ∧
      priceOption constTwoFns { unitSpec with exercise := .american } =
        .ok 200 ∧
      priceOption constTwoFns { unitSpec with exercise := .european } =
        .ok 200 ∧
      (200 : ℚ) ≤ 200 := by
  have hF : ∀ x : ℚ, 0 ≤ constTwoFns.exp x := fun x => by
    norm_num [constTwoFns, affineFns]
  have hA : priceOption constTwoFns
      { unitSpec with exercise := ExerciseType.american } = .ok 200 := by
    simp [priceOption, computeParameters, pydiv, constTwoFns, affineFns,
      unitSpec, backward, backstep, latticeCtx, isAmerican, intrinsic,
      List.range_succ]
    norm_num
  have hE : priceOption constTwoFns
      { unitSpec with exercise := ExerciseType.european } = .ok 200 := by
    simp [priceOption, computeParameters, pydiv, constTwoFns, affineFns,
      unitSpec, backward, backstep, latticeCtx, isAmerican, intrinsic,
      List.range_succ]
    norm_num
  exact ⟨hF, hA, hE,
    c7_american_ge_european constTwoFns unitSpec hF 200 200 hA hE⟩

/-- Claim C9: the `OptionSpec` constructor validates only step count,
maturity, volatility and dividend yield — the spot and strike fields are
unconstrained, so construction succeeds for every spot and strike
(including zero and negative values) whenever the validated fields pass. -/
theorem c9_construction_ignores_spot_strike (spec : OptionSpec)
    (h1 : 0 < spec.steps) (h2 : 0 < spec.maturity)
    (h3 : 0 ≤ spec.volatility) (h4 : 0 ≤ spec.dividendYield) :
    mkOptionSpec spec = .ok spec := by
  unfold mkOptionSpec
  rw [if_neg (not_le.mpr h1), if_neg (not_le.mpr h2),
    if_neg (not_lt.mpr h3), if_neg (not_lt.mpr h4)]

/-- A sample spec with negative spot and strike. -/
def negativeSpotSpec : OptionSpec :=
  { spot := -5, strike := -7, maturity := 1, rate := 0, volatility := 0,
    steps := 1 }

/-- Claim C9 witness: construction succeeds with negative spot and
strike. -/
theorem c9_witness :
    0 < negativeSpotSpec.steps ∧ 0 < negativeSpotSpec.maturity ∧
      0 ≤ negativeSpotSpec.volatility ∧
      0 ≤ negativeSpotSpec.dividendYield ∧
      negativeSpotSpec.spot < 0 ∧ negativeSpotSpec.strike < 0 ∧
      mkOptionSpec negativeSpotSpec = .ok negativeSpotSpec := by
  refine ⟨by decide, by norm_num [negativeSpotSpec],
    by norm_num [negativeSpotSpec], by norm_num [negativeSpotSpec],
    by norm_num [negativeSpotSpec], by norm_num [negativeSpotSpec],
    c9_construction_ignores_spot_strike negativeSpotSpec (by decide)
      (by norm_num [negativeSpotSpec]) (by norm_num [negativeSpotSpec])
      (by norm_num [negativeSpotSpec])⟩

/-- Folding `+ g i` over `List.range n` from `a` accumulates the sum. -/
theorem foldl_add_eq (g : ℕ → ℚ) :
    ∀ (n : ℕ) (a : ℚ), (List.range n).foldl (fun acc i => acc + g i) a =
      a + ∑ i ∈ Finset.range n, g i
  | 0, a => by simp
  | n + 1, a => by
    rw [List.range_succ, List.foldl_append, foldl_add_eq g n a,
      Finset.sum_range_succ]
    show a + ∑ i ∈ Finset.range n, g i + g n = _
    rw [add_assoc]

/-- Claim C6: for positive path count and maturity and nonnegative
volatility, `monte_carlo_price` returns `exp(−r·T)` times the average over
the path count of the payoff at `S_T = spot·exp(drift + diffusion·Z_i)`,
with `drift = (r − q − σ²/2)·T`, `diffusion = σ√T`, and `Z_i` the `i`-th
standard-normal draw of the seeded generator. -/
theorem c6_monte_carlo_estimator (F : RealFns)
    (spot rate volatility maturity dividendYield : ℚ) (simulations : ℤ)
    (payoff : ℚ → ℚ) (normals : ℕ → ℚ) (h1 : 0 < simulations)
    (h2 : 0 < maturity) (h3 : 0 ≤ volatility) :
    monteCarloPrice F spot rate volatility maturity dividendYield
      simulations payoff normals =
      .ok (F.exp (-(rate * maturity)) *
        (∑ i ∈ Finset.range simulations.toNat,
          payoff (spot * F.exp
            ((rate - dividendYield - (1 / 2) * volatility * volatility) *
              maturity + volatility * F.sqrt maturity * normals i))) /
        (simulations : ℚ)) := by
  unfold monteCarloPrice
  rw [if_neg (not_le.mpr h1), if_neg (not_le.mpr h2),
    if_neg (not_lt.mpr h3)]
  dsimp only
  rw [foldl_add_eq, zero_add]

/-- Claim C6 witness: two paths with zero volatility and rate, identity
payoff, price `1`. -/
theorem c6_witness :
    (0 : ℤ) < 2 ∧ (0 : ℚ) < 1 ∧ (0 : ℚ) ≤ 0 ∧
      monteCarloPrice affineFns 1 0 0 1 0 2 id (fun _ => 0) = .ok 1 := by
  refine ⟨by decide, by norm_num, le_refl 0, ?_⟩
  rw [c6_monte_carlo_estimator affineFns 1 0 0 1 0 2 id (fun _ => 0)
    (by decide) (by norm_num) (le_refl 0),
    show (2 : ℤ).toNat = 2 from rfl]
  norm_num [affineFns, Finset.sum_range_succ]

end OptionPricing
